import Mathlib

/-
  Verification development for the container core of alloc2log
  (src/src/3rdparty/ftg_containers.h).

  The C code is shallowly embedded: machine integers become Int/Nat (with
  explicit mod 2^32 where the C code relies on unsigned wraparound), the
  hashindex table and per-slot overflow chains become total functions
  Nat -> Int and Nat -> List Int, C strings become lists of non-zero bytes,
  heap allocation success is passed in as an explicit boolean oracle and a
  freshly returned address is passed as an explicit Nat.
-/

/-! ## Hashindex (ftg_containers.h, hashindex section) -/

def FTGC_HASHINDEX_UNUSED : Int := -1

def FTGC_HASHINDEX_DELETED : Int := -2

/-- State of `ftgc_hashindex_s`: `table` maps a slot to its head value
(`FTGC_HASHINDEX_UNUSED`, `FTGC_HASHINDEX_DELETED` or a caller value), `chain`
maps a slot to the values of its overflow chain nodes in link order (the C
chain is a linked list anchored at `chain[key]`; after successful appends its
last node always holds `FTGC_HASHINDEX_UNUSED`). -/
structure ftgc_hashindex_s where
  table : Nat → Int
  chain : Nat → List Int
  table_size : Nat
  hash_mask : Nat

/-- `ftgc__pow2_roundup`: round up to the next power of two via the
decrement / or-shift / increment trick of the source. -/
def ftgc__pow2_roundup (v : Nat) : Nat :=
  let v1 := v - 1
  let v2 := v1 ||| (v1 >>> 1)
  let v3 := v2 ||| (v2 >>> 2)
  let v4 := v3 ||| (v3 >>> 4)
  let v5 := v4 ||| (v4 >>> 8)
  let v6 := v5 ||| (v5 >>> 16)
  v6 + 1

/-- `ftgc_hashindex_init` (successful allocation): every table slot is set to
`FTGC_HASHINDEX_UNUSED` and every chain is the single pre-allocated node
holding `FTGC_HASHINDEX_UNUSED`. -/
def ftgc_hashindex_init (vert_size : Nat) : ftgc_hashindex_s :=
  let ts := ftgc__pow2_roundup vert_size
  { table := fun _ => FTGC_HASHINDEX_UNUSED
    chain := fun _ => [FTGC_HASHINDEX_UNUSED]
    table_size := ts
    hash_mask := ts - 1 }

/-- `ftgc__is_value_in_chain`: the C loop runs `for (current = start;
current->next; ...)`, so it scans every node except the last one. -/
def ftgc__is_value_in_chain (nodes : List Int) (value : Int) : Bool :=
  decide (value ∈ nodes.dropLast)

/-- `ftgc_hashindex_add_key`.  `allocOk` tells whether the `FTGC_MALLOC` of
the new trailing node inside `ftgc__append_node` succeeds.  Returns the new
state and the C result code: 0 = stored in the table slot, 1 = collision
(duplicate ignored or appended to the chain), -1 = out of memory.  In the
append branch the source first overwrites the trailing node
(`chain_end->value = value`) and only then tries to allocate the new trailing
`FTGC_HASHINDEX_UNUSED` node, so on allocation failure the chain keeps the
value but gains no trailing node. -/
def ftgc_hashindex_add_key (h : ftgc_hashindex_s) (key : Nat) (value : Int)
    (allocOk : Bool) : ftgc_hashindex_s × Int :=
  if h.table key = FTGC_HASHINDEX_UNUSED ∨ h.table key = FTGC_HASHINDEX_DELETED then
    ({ h with table := Function.update h.table key value }, 0)
  else if h.table key = value then
    (h, 1)
  else if ftgc__is_value_in_chain (h.chain key) value then
    (h, 1)
  else
    let newChain := (h.chain key).dropLast ++
      (if allocOk then [value, FTGC_HASHINDEX_UNUSED] else [value])
    ({ h with chain := Function.update h.chain key newChain },
     if allocOk then 1 else -1)

/-- `ftgc_hashindex_remove_first`: marks only the table slot as deleted and
does not walk the chain. -/
def ftgc_hashindex_remove_first (h : ftgc_hashindex_s) (key : Nat) :
    ftgc_hashindex_s :=
  { h with table := Function.update h.table key FTGC_HASHINDEX_DELETED }

/-- `ftgc_hashindex_iter_get_first`: returns the table slot value verbatim and
points the iterator at the head of the slot's chain. -/
def ftgc_hashindex_iter_get_first (h : ftgc_hashindex_s) (key : Nat) :
    Int × List Int :=
  (h.table key, h.chain key)

/-- `ftgc_hashindex_iter_get_next`: skips every chain node whose value is
`FTGC_HASHINDEX_DELETED`, then returns the next node's value and advances; a
null current node returns -1 (= `FTGC_HASHINDEX_UNUSED`). -/
def ftgc_hashindex_iter_get_next : List Int → Int × List Int
  | [] => (FTGC_HASHINDEX_UNUSED, [])
  | n :: rest =>
    if n = FTGC_HASHINDEX_DELETED then ftgc_hashindex_iter_get_next rest
    else (n, rest)

/-- `ftgc_hashindex_iter_remove_current`: sets the value of the most recently
yielded chain node (position `pos` in the slot's chain) to
`FTGC_HASHINDEX_DELETED` without otherwise altering chain structure. -/
def ftgc_hashindex_iter_remove_current (h : ftgc_hashindex_s) (key pos : Nat) :
    ftgc_hashindex_s :=
  { h with chain :=
      Function.update h.chain key ((h.chain key).set pos FTGC_HASHINDEX_DELETED) }

/-- The sequence of chain values a caller receives from repeated
`ftgc_hashindex_iter_get_next` calls, stopping (as the documented loop does)
when the returned value is `FTGC_HASHINDEX_UNUSED`.  Deleted nodes are skipped
inside `get_next` itself, so they never show up here. -/
def chainCollect : List Int → List Int
  | [] => []
  | n :: rest =>
    if n = FTGC_HASHINDEX_DELETED then chainCollect rest
    else if n = FTGC_HASHINDEX_UNUSED then []
    else n :: chainCollect rest

/-- `chainCollect` is the trace of the operational iterator
`ftgc_hashindex_iter_get_next` under the documented caller loop (stop when
the returned value equals `FTGC_HASHINDEX_UNUSED`). -/
theorem chainCollect_eq_iter_trace (l : List Int) :
    chainCollect l =
      (if (ftgc_hashindex_iter_get_next l).1 = FTGC_HASHINDEX_UNUSED then []
       else (ftgc_hashindex_iter_get_next l).1 ::
         chainCollect (ftgc_hashindex_iter_get_next l).2) := by
  induction l with
  | nil => simp [chainCollect, ftgc_hashindex_iter_get_next]
  | cons n rest ih =>
    by_cases hd : n = FTGC_HASHINDEX_DELETED
    · simpa [chainCollect, ftgc_hashindex_iter_get_next, hd] using ih
    · by_cases hu : n = FTGC_HASHINDEX_UNUSED
      · simp [chainCollect, ftgc_hashindex_iter_get_next, hd, hu,
          FTGC_HASHINDEX_UNUSED, FTGC_HASHINDEX_DELETED]
      · simp [chainCollect, ftgc_hashindex_iter_get_next, hd, hu]

/-- Full iteration sequence of one slot as the documented caller loop sees
it: the head value from `ftgc_hashindex_iter_get_first` (which ends the loop
at once when it is `FTGC_HASHINDEX_UNUSED`), followed by the chain values
yielded by `ftgc_hashindex_iter_get_next` until `FTGC_HASHINDEX_UNUSED`. -/
def slotIter (h : ftgc_hashindex_s) (key : Nat) : List Int :=
  if (ftgc_hashindex_iter_get_first h key).1 = FTGC_HASHINDEX_UNUSED then []
  else (ftgc_hashindex_iter_get_first h key).1 ::
    chainCollect (ftgc_hashindex_iter_get_first h key).2

/-! ## Operation sequences over a hashindex -/

/-- The two hashindex mutators the reachability claims quantify over. -/
inductive HOp where
  | addKey (key : Nat) (value : Int) (allocOk : Bool)
  | removeFirst (key : Nat)

def runOps (h : ftgc_hashindex_s) : List HOp → ftgc_hashindex_s
  | [] => h
  | HOp.addKey k v ok :: rest => runOps (ftgc_hashindex_add_key h k v ok).1 rest
  | HOp.removeFirst k :: rest => runOps (ftgc_hashindex_remove_first h k) rest

/-- All values added by the operation list are plain array indices
(non-negative, hence distinct from both sentinels). -/
def hopsOk (ops : List HOp) : Bool :=
  ops.all fun op =>
    match op with
    | HOp.addKey _ v _ => decide (0 ≤ v)
    | HOp.removeFirst _ => true

/-- `AddKey` calls for a single slot, all with a succeeding allocator. -/
def addsFor (k : Nat) (vs : List Int) : List HOp :=
  vs.map fun v => HOp.addKey k v true

/-! ## Chain well-formedness invariant (claim C1) -/

/-- Well-formedness of one overflow chain: the chain is non-empty, every node
before the last holds a distinct non-negative value, and the last node either
is the pre-allocated trailing `FTGC_HASHINDEX_UNUSED` node or (after an
allocation failure inside `ftgc__append_node`) holds one more fresh
non-negative value. -/
def ChainWF (nodes : List Int) : Prop :=
  ∃ cs lastv, nodes = cs ++ [lastv] ∧ cs.Nodup ∧ (∀ x ∈ cs, 0 ≤ x) ∧
    (lastv = FTGC_HASHINDEX_UNUSED ∨ (0 ≤ lastv ∧ lastv ∉ cs))

theorem ChainWF.nodup {nodes : List Int} (h : ChainWF nodes) : nodes.Nodup := by
  obtain ⟨cs, lastv, rfl, hnd, hpos, hlast⟩ := h
  have hne : lastv ∉ cs := by
    rcases hlast with h1 | ⟨_, h2⟩
    · intro hmem
      have := hpos lastv hmem
      rw [h1] at this
      simp [FTGC_HASHINDEX_UNUSED] at this
    · exact h2
  simp [List.nodup_append, hnd]
  exact hne

theorem chainWF_unused : ChainWF [FTGC_HASHINDEX_UNUSED] :=
  ⟨[], FTGC_HASHINDEX_UNUSED, by simp⟩

/-- `ftgc_hashindex_add_key` preserves chain well-formedness of every slot for
every allocator outcome, as long as the added value is a plain index. -/
theorem addKey_chainWF (h : ftgc_hashindex_s) (k0 : Nat) (v : Int) (ok : Bool)
    (hv : 0 ≤ v) (hwf : ∀ k, ChainWF (h.chain k)) :
    ∀ k, ChainWF ((ftgc_hashindex_add_key h k0 v ok).1.chain k) := by
  intro k
  unfold ftgc_hashindex_add_key
  split
  · exact hwf k
  · split
    · exact hwf k
    · split
      · exact hwf k
      · rename_i hnotin
        simp only
        by_cases hk : k = k0
        · subst hk
          rw [Function.update_same]
          obtain ⟨cs, lastv, hch, hnd, hpos, hlast⟩ := hwf k
          rw [hch, List.dropLast_concat]
          have hvcs : v ∉ cs := by
            intro hmem
            apply hnotin
            unfold ftgc__is_value_in_chain
            rw [hch, List.dropLast_concat]
            simpa using hmem
          cases ok with
          | true =>
            refine ⟨cs ++ [v], FTGC_HASHINDEX_UNUSED, by simp, ?_, ?_, Or.inl rfl⟩
            · simp [List.nodup_append, hnd]
              exact hvcs
            · intro x hx
              rcases (List.mem_append.mp hx) with hx | hx
              · exact hpos x hx
              · simp at hx
                omega
          | false =>
            exact ⟨cs, v, by simp, hnd, hpos, Or.inr ⟨hv, hvcs⟩⟩
        · rw [Function.update_noteq hk]
          exact hwf k

/-- Every hashindex state reachable from `ftgc_hashindex_init` by `AddKey`
(with any allocator outcomes) and `RemoveFirst` has well-formed chains. -/
theorem runOps_chainWF (ops : List HOp) :
    ∀ (h : ftgc_hashindex_s), hopsOk ops = true →
      (∀ k, ChainWF (h.chain k)) → ∀ k, ChainWF ((runOps h ops).chain k) := by
  induction ops with
  | nil => intro h _ hwf; exact hwf
  | cons op rest ih =>
    intro h hops hwf
    have hrest : hopsOk rest = true := by
      simp [hopsOk, List.all_cons] at hops ⊢
      exact hops.2
    cases op with
    | addKey k0 v ok =>
      have hv : 0 ≤ v := by
        simp [hopsOk, List.all_cons] at hops
        exact hops.1
      exact ih _ hrest (addKey_chainWF h k0 v ok hv hwf)
    | removeFirst k0 =>
      exact ih _ hrest (fun k => hwf k)

/-- Iterating a well-formed chain whose filled prefix holds only plain
indices yields exactly that prefix. -/
theorem chainCollect_nonneg (cs : List Int) (hpos : ∀ x ∈ cs, 0 ≤ x) :
    chainCollect (cs ++ [FTGC_HASHINDEX_UNUSED]) = cs := by
  induction cs with
  | nil => simp [chainCollect, FTGC_HASHINDEX_UNUSED, FTGC_HASHINDEX_DELETED]
  | cons a t ih =>
    have ha := hpos a (by simp)
    have h1 : a ≠ FTGC_HASHINDEX_DELETED := by
      simp only [FTGC_HASHINDEX_DELETED]
      omega
    have h2 : a ≠ FTGC_HASHINDEX_UNUSED := by
      simp only [FTGC_HASHINDEX_UNUSED]
      omega
    simp [chainCollect, h1, h2, ih (fun x hx => hpos x (by simp [hx]))]

/-! ## Per-slot invariant for same-key AddKey sequences (claim C1) -/

/-- After some sequence `p` of `AddKey(k, v)` calls with values `p` and a
succeeding allocator, slot `k` holds: a chain of distinct non-negative values
ending in the trailing `FTGC_HASHINDEX_UNUSED` node, and the head plus chain
values are exactly the distinct members of `p`, each once. -/
def SlotInv (h : ftgc_hashindex_s) (k : Nat) (p : List Int) : Prop :=
  ∃ cs, h.chain k = cs ++ [FTGC_HASHINDEX_UNUSED] ∧ (∀ x ∈ cs, 0 ≤ x) ∧
    ((h.table k = FTGC_HASHINDEX_UNUSED ∧ cs = [] ∧ p = []) ∨
     (0 ≤ h.table k ∧ (h.table k :: cs).Nodup ∧
      (∀ v, v ∈ h.table k :: cs ↔ v ∈ p)))

theorem slotInv_start (n : Nat) (k : Nat) :
    SlotInv (ftgc_hashindex_init n) k [] := by
  exact ⟨[], by simp [ftgc_hashindex_init], by simp, Or.inl (by
    simp [ftgc_hashindex_init])⟩

theorem addKey_slotInv (h : ftgc_hashindex_s) (k : Nat) (v : Int) (p : List Int)
    (hv : 0 ≤ v) (inv : SlotInv h k p) :
    SlotInv (ftgc_hashindex_add_key h k v true).1 k (p ++ [v]) := by
  obtain ⟨cs, hch, hpos, hdisj⟩ := inv
  rcases hdisj with ⟨htab, hcs, hp⟩ | ⟨htab, hnd, hmem⟩
  · -- empty slot: the value is stored straight into the table slot
    subst hcs hp
    have hstep : ftgc_hashindex_add_key h k v true =
        ({ h with table := Function.update h.table k v }, 0) := by
      simp [ftgc_hashindex_add_key, htab]
    rw [hstep]
    refine ⟨[], ?_, by simp, Or.inr ⟨?_, ?_, ?_⟩⟩
    · simpa using hch
    · simpa [Function.update_same] using hv
    · simp
    · intro w
      simp [Function.update_same]
  · -- occupied slot
    have htu : h.table k ≠ FTGC_HASHINDEX_UNUSED := by
      simp only [FTGC_HASHINDEX_UNUSED]; omega
    have htd : h.table k ≠ FTGC_HASHINDEX_DELETED := by
      simp only [FTGC_HASHINDEX_DELETED]; omega
    by_cases hhead : h.table k = v
    · -- duplicate of the head value: no change
      have hv0 : 0 ≤ v := hhead ▸ htab
      have hvu : ¬ v = FTGC_HASHINDEX_UNUSED := by
        simp only [FTGC_HASHINDEX_UNUSED]; omega
      have hvd : ¬ v = FTGC_HASHINDEX_DELETED := by
        simp only [FTGC_HASHINDEX_DELETED]; omega
      have hstep : ftgc_hashindex_add_key h k v true = (h, 1) := by
        simp [ftgc_hashindex_add_key, htu, htd, hhead, hvu, hvd]
      rw [hstep]
      subst hhead
      refine ⟨cs, hch, hpos, Or.inr ⟨htab, hnd, ?_⟩⟩
      intro w
      have hmw := hmem w
      simp only [List.mem_cons] at hmw
      simp only [List.mem_cons, List.mem_append, List.mem_singleton]
      tauto
    · by_cases hvcs : v ∈ cs
      · -- duplicate already in the chain: no change
        have hic : ftgc__is_value_in_chain (h.chain k) v = true := by
          unfold ftgc__is_value_in_chain
          rw [hch, List.dropLast_concat]
          simpa using hvcs
        have hstep : ftgc_hashindex_add_key h k v true = (h, 1) := by
          simp [ftgc_hashindex_add_key, htu, htd, hhead, hic]
        rw [hstep]
        refine ⟨cs, hch, hpos, Or.inr ⟨htab, hnd, ?_⟩⟩
        intro w
        have hmw := hmem w
        have hwv : w = v → w ∈ cs := fun e => e ▸ hvcs
        simp only [List.mem_cons] at hmw
        simp only [List.mem_cons, List.mem_append, List.mem_singleton]
        tauto
      · -- fresh value: appended at the trailing node
        have hic : ftgc__is_value_in_chain (h.chain k) v = false := by
          unfold ftgc__is_value_in_chain
          rw [hch, List.dropLast_concat]
          simpa using hvcs
        have hstep : ftgc_hashindex_add_key h k v true =
            ({ h with chain := Function.update h.chain k ((h.chain k).dropLast ++ [v, FTGC_HASHINDEX_UNUSED]) }, 1) := by
          simp [ftgc_hashindex_add_key, htu, htd, hhead, hic]
        rw [hstep]
        refine ⟨cs ++ [v], ?_, ?_, Or.inr ⟨htab, ?_, ?_⟩⟩
        · simp [Function.update_same, hch, List.dropLast_concat]
        · intro x hx
          rcases List.mem_append.mp hx with hx | hx
          · exact hpos x hx
          · simp at hx
            omega
        · have h1 : ((h.table k :: cs) ++ [v]).Nodup := by
            rw [List.nodup_append]
            refine ⟨hnd, List.nodup_singleton v, ?_⟩
            intro a ha hav
            simp at hav
            subst hav
            rcases List.mem_cons.mp ha with h2 | h2
            · exact hhead h2.symm
            · exact hvcs h2
          simpa using h1
        · intro w
          have hmw := hmem w
          simp only [List.mem_cons] at hmw
          simp only [List.mem_cons, List.mem_append, List.mem_singleton]
          tauto

theorem addsFor_slotInv (k : Nat) (vs : List Int) :
    ∀ (h : ftgc_hashindex_s) (p : List Int), (∀ x ∈ vs, 0 ≤ x) →
      SlotInv h k p → SlotInv (runOps h (addsFor k vs)) k (p ++ vs) := by
  induction vs with
  | nil =>
    intro h p _ inv
    simpa [addsFor, runOps] using inv
  | cons v t ih =>
    intro h p hvs inv
    have h1 := addKey_slotInv h k v p (hvs v (by simp)) inv
    have h2 := ih (ftgc_hashindex_add_key h k v true).1 (p ++ [v])
      (fun x hx => hvs x (by simp [hx])) h1
    simpa [addsFor, runOps, List.append_assoc] using h2

theorem slotInv_count (h : ftgc_hashindex_s) (k : Nat) (p : List Int)
    (inv : SlotInv h k p) (v : Int) (hvp : v ∈ p) :
    (slotIter h k).count v = 1 := by
  obtain ⟨cs, hch, hpos, hdisj⟩ := inv
  rcases hdisj with ⟨htab, hcs, hp⟩ | ⟨htab, hnd, hmem⟩
  · subst hp
    simp at hvp
  · have htu : h.table k ≠ FTGC_HASHINDEX_UNUSED := by
      simp only [FTGC_HASHINDEX_UNUSED]; omega
    have hsl : slotIter h k = h.table k :: cs := by
      simp [slotIter, ftgc_hashindex_iter_get_first, htu, hch,
        chainCollect_nonneg cs hpos]
    rw [hsl]
    exact List.count_eq_one_of_mem hnd ((hmem v).mpr hvp)

/-- C1: in every hashindex state reachable from `ftgc_hashindex_init` by any
sequence of `ftgc_hashindex_add_key` and `ftgc_hashindex_remove_first` calls
(with index values as values, any allocator outcomes), no value appears twice
within one overflow chain; and in particular, after any sequence of
`AddKey(k2, v)` calls on one slot with a succeeding allocator, each distinct
added value appears exactly once in the iteration sequence of that slot (head
value followed by chain values), however often the same value was added. -/
theorem ftgc_hashindex_chain_unique (n : Nat) (ops : List HOp)
    (hops : hopsOk ops = true) (k k2 : Nat) (vs : List Int)
    (hvs : ∀ v ∈ vs, 0 ≤ v) :
    ((runOps (ftgc_hashindex_init n) ops).chain k).Nodup ∧
    ∀ v ∈ vs,
      (slotIter (runOps (ftgc_hashindex_init n) (addsFor k2 vs)) k2).count v
        = 1 := by
  constructor
  · refine (runOps_chainWF ops (ftgc_hashindex_init n) hops (fun kk => ?_) k).nodup
    simpa [ftgc_hashindex_init] using chainWF_unused
  · intro v hv
    have h1 := addsFor_slotInv k2 vs (ftgc_hashindex_init n) [] hvs
      (slotInv_start n k2)
    exact slotInv_count _ _ _ (by simpa using h1) v hv

theorem ftgc_hashindex_chain_unique_witness :
    ((runOps (ftgc_hashindex_init 4)
        [HOp.addKey 0 5 true, HOp.addKey 0 6 true, HOp.removeFirst 0,
         HOp.addKey 0 6 true]).chain 0).Nodup ∧
    (slotIter (runOps (ftgc_hashindex_init 4) (addsFor 0 [5, 6, 5])) 0).count 5
      = 1 := by
  have h := ftgc_hashindex_chain_unique 4
    [HOp.addKey 0 5 true, HOp.addKey 0 6 true, HOp.removeFirst 0,
     HOp.addKey 0 6 true]
    (by decide) 0 0 [5, 6, 5] (by decide)
  exact ⟨h.1, h.2 5 (by decide)⟩

/-! ## Iteration semantics (claim C4) -/

/-- What `ftgc_hashindex_iter_get_next` hands to the caller-side loop is the
chain with its `FTGC_HASHINDEX_DELETED` nodes removed by the iterator itself,
cut off at the first `FTGC_HASHINDEX_UNUSED` value. -/
theorem chainCollect_eq_filter_takeWhile (l : List Int) :
    chainCollect l =
      (l.filter (fun x => x != FTGC_HASHINDEX_DELETED)).takeWhile
        (fun x => x != FTGC_HASHINDEX_UNUSED) := by
  induction l with
  | nil => simp [chainCollect]
  | cons n rest ih =>
    by_cases hd : n = FTGC_HASHINDEX_DELETED
    · simp [chainCollect, List.filter_cons, hd, ih]
    · by_cases hu : n = FTGC_HASHINDEX_UNUSED
      · simp [chainCollect, List.filter_cons, List.takeWhile_cons, hd, hu,
          FTGC_HASHINDEX_UNUSED, FTGC_HASHINDEX_DELETED]
      · simp [chainCollect, List.filter_cons, List.takeWhile_cons, hd, hu, ih]

/-- C4 (amended): a `FTGC_HASHINDEX_DELETED` head is yielded to the caller
verbatim by `ftgc_hashindex_iter_get_first` and does not end the sequence;
but `ftgc_hashindex_iter_get_next` itself skips `FTGC_HASHINDEX_DELETED`
chain nodes (the caller never sees them), yields the remaining chain values
in chain order, and the sequence ends exactly when a value is
`FTGC_HASHINDEX_UNUSED`. -/
theorem ftgc_hashindex_iter_amended (h : ftgc_hashindex_s) (k : Nat)
    (hd : h.table k = FTGC_HASHINDEX_DELETED) :
    slotIter h k = FTGC_HASHINDEX_DELETED :: chainCollect (h.chain k) ∧
    chainCollect (h.chain k) =
      ((h.chain k).filter (fun x => x != FTGC_HASHINDEX_DELETED)).takeWhile
        (fun x => x != FTGC_HASHINDEX_UNUSED) := by
  constructor
  · simp [slotIter, ftgc_hashindex_iter_get_first, hd,
      FTGC_HASHINDEX_DELETED, FTGC_HASHINDEX_UNUSED]
  · exact chainCollect_eq_filter_takeWhile (h.chain k)

theorem ftgc_hashindex_iter_amended_witness :
    slotIter (ftgc_hashindex_remove_first (ftgc_hashindex_init 4) 0) 0 =
      FTGC_HASHINDEX_DELETED ::
        chainCollect
          ((ftgc_hashindex_remove_first (ftgc_hashindex_init 4) 0).chain 0) ∧
    chainCollect
        ((ftgc_hashindex_remove_first (ftgc_hashindex_init 4) 0).chain 0) =
      (((ftgc_hashindex_remove_first (ftgc_hashindex_init 4) 0).chain 0).filter
          (fun x => x != FTGC_HASHINDEX_DELETED)).takeWhile
        (fun x => x != FTGC_HASHINDEX_UNUSED) :=
  ftgc_hashindex_iter_amended _ 0 (by decide)

/-- State with a tombstoned chain node: insert 5 (head), 7 and 9 (chain) at
slot 0, then delete the first chain node (value 7) through the iterator. -/
def c4State : ftgc_hashindex_s :=
  ftgc_hashindex_iter_remove_current
    ((ftgc_hashindex_add_key
      ((ftgc_hashindex_add_key
        ((ftgc_hashindex_add_key (ftgc_hashindex_init 4) 0 5 true).1)
        0 7 true).1)
      0 9 true).1)
    0 0

/-- C4 counterexample: the chain of slot 0 holds a `FTGC_HASHINDEX_DELETED`
sentinel, yet the iteration sequence never yields it — the iterator, not the
caller, skipped it (the sequence is `[5, 9]`, not `[5, DELETED, 9]`). -/
theorem ftgc_hashindex_iter_skips_deleted_cex :
    slotIter c4State 0 = [5, 9] ∧
    FTGC_HASHINDEX_DELETED ∈ c4State.chain 0 ∧
    FTGC_HASHINDEX_DELETED ∉ slotIter c4State 0 := by decide

/-! ## AddKey result codes (claim C6) -/

/-- C6: with a well-formed chain (filled prefix `cs`, trailing unused node),
`ftgc_hashindex_add_key` stores the value in the table slot and returns 0
when the slot is unused or deleted; returns 1 without any change when the
value equals the head or already appears in the chain; appends the value at
the trailing node, materializes a new trailing node and returns 1 when the
allocation succeeds; and returns -1, distinct from both normal results, when
the new trailing node cannot be allocated. -/
theorem ftgc_hashindex_add_key_results (h : ftgc_hashindex_s) (k : Nat)
    (v : Int) (ok : Bool) (cs : List Int)
    (hch : h.chain k = cs ++ [FTGC_HASHINDEX_UNUSED]) :
    ((h.table k = FTGC_HASHINDEX_UNUSED ∨ h.table k = FTGC_HASHINDEX_DELETED) →
      ftgc_hashindex_add_key h k v ok =
        ({ h with table := Function.update h.table k v }, 0)) ∧
    (h.table k ≠ FTGC_HASHINDEX_UNUSED → h.table k ≠ FTGC_HASHINDEX_DELETED →
      (v = h.table k ∨ v ∈ cs) → ftgc_hashindex_add_key h k v ok = (h, 1)) ∧
    (h.table k ≠ FTGC_HASHINDEX_UNUSED → h.table k ≠ FTGC_HASHINDEX_DELETED →
      v ≠ h.table k → v ∉ cs → ok = true →
      (ftgc_hashindex_add_key h k v ok).2 = 1 ∧
      (ftgc_hashindex_add_key h k v ok).1.chain k =
        cs ++ [v, FTGC_HASHINDEX_UNUSED]) ∧
    (h.table k ≠ FTGC_HASHINDEX_UNUSED → h.table k ≠ FTGC_HASHINDEX_DELETED →
      v ≠ h.table k → v ∉ cs → ok = false →
      (ftgc_hashindex_add_key h k v ok).2 = -1) ∧
    ((-1 : Int) ≠ 0 ∧ (-1 : Int) ≠ 1) := by
  refine ⟨?_, ?_, ?_, ?_, by norm_num⟩
  · intro htab
    simp [ftgc_hashindex_add_key, htab]
  · intro htu htd hdup
    rcases hdup with hdup | hdup
    · have hh : h.table k = v := hdup.symm
      have hvu : ¬ v = FTGC_HASHINDEX_UNUSED := fun e => htu (hh.trans e)
      have hvd : ¬ v = FTGC_HASHINDEX_DELETED := fun e => htd (hh.trans e)
      simp [ftgc_hashindex_add_key, htu, htd, hh, hvu, hvd]
    · have hic : ftgc__is_value_in_chain (h.chain k) v = true := by
        unfold ftgc__is_value_in_chain
        rw [hch, List.dropLast_concat]
        simpa using hdup
      by_cases hhead : h.table k = v
      · have hvu : ¬ v = FTGC_HASHINDEX_UNUSED := fun e => htu (hhead.trans e)
        have hvd : ¬ v = FTGC_HASHINDEX_DELETED := fun e => htd (hhead.trans e)
        simp [ftgc_hashindex_add_key, htu, htd, hhead, hvu, hvd]
      · simp [ftgc_hashindex_add_key, htu, htd, hhead, hic]
  · intro htu htd hvh hvcs hok
    have hic : ftgc__is_value_in_chain (h.chain k) v = false := by
      unfold ftgc__is_value_in_chain
      rw [hch, List.dropLast_concat]
      simpa using hvcs
    have hhead : ¬ h.table k = v := fun e => hvh e.symm
    subst hok
    have hic2 : ftgc__is_value_in_chain (cs ++ [FTGC_HASHINDEX_UNUSED]) v
        = false := by
      unfold ftgc__is_value_in_chain
      rw [List.dropLast_concat]
      simpa using hvcs
    constructor
    · simp [ftgc_hashindex_add_key, htu, htd, hhead, hic]
    · simp [ftgc_hashindex_add_key, htu, htd, hhead, hic, hic2,
        Function.update_same, hch, List.dropLast_concat]
  · intro htu htd hvh hvcs hok
    have hic : ftgc__is_value_in_chain (h.chain k) v = false := by
      unfold ftgc__is_value_in_chain
      rw [hch, List.dropLast_concat]
      simpa using hvcs
    have hhead : ¬ h.table k = v := fun e => hvh e.symm
    subst hok
    simp [ftgc_hashindex_add_key, htu, htd, hhead, hic]

theorem ftgc_hashindex_add_key_results_witness :
    (ftgc_hashindex_add_key
        ((ftgc_hashindex_add_key (ftgc_hashindex_init 4) 0 5 true).1)
        0 7 true).2 = 1 ∧
    (ftgc_hashindex_add_key
        ((ftgc_hashindex_add_key (ftgc_hashindex_init 4) 0 5 true).1)
        0 7 true).1.chain 0 = [] ++ [7, FTGC_HASHINDEX_UNUSED] :=
  (ftgc_hashindex_add_key_results
    ((ftgc_hashindex_add_key (ftgc_hashindex_init 4) 0 5 true).1)
    0 7 true [] (by decide)).2.2.1
    (by decide) (by decide) (by decide) (by decide) rfl

/-! ## Tombstone reuse (claim C7) -/

/-- C7: after `ftgc_hashindex_remove_first`, `ftgc_hashindex_iter_get_first`
yields `FTGC_HASHINDEX_DELETED`; a subsequent `ftgc_hashindex_add_key` on the
tombstoned slot stores the value directly in the table slot, returns the
inserted-no-collision code 0, and `ftgc_hashindex_iter_get_first` then yields
that value. -/
theorem ftgc_hashindex_tombstone_reuse (h : ftgc_hashindex_s) (k : Nat)
    (v : Int) (ok : Bool) :
    (ftgc_hashindex_iter_get_first (ftgc_hashindex_remove_first h k) k).1 =
      FTGC_HASHINDEX_DELETED ∧
    (ftgc_hashindex_add_key (ftgc_hashindex_remove_first h k) k v ok).2 = 0 ∧
    (ftgc_hashindex_iter_get_first
        (ftgc_hashindex_add_key (ftgc_hashindex_remove_first h k) k v ok).1
        k).1 = v := by
  refine ⟨?_, ?_, ?_⟩ <;>
    simp [ftgc_hashindex_iter_get_first, ftgc_hashindex_remove_first,
      ftgc_hashindex_add_key, Function.update_same,
      FTGC_HASHINDEX_UNUSED, FTGC_HASHINDEX_DELETED]

/-! ## Off-by-one key range check (claim C10) -/

/-- The precondition asserted at the top of `ftgc_hashindex_remove_first`:
`FTGC__ASSERT(key <= ctx->table_size); FTGC__ASSERT(key >= 0);`. -/
def removeFirstAssertPre (h : ftgc_hashindex_s) (key : Int) : Prop :=
  key ≤ (h.table_size : Int) ∧ 0 ≤ key

/-- The precondition asserted at the top of `ftgc_hashindex_iter_get_first`:
`FTGC__ASSERT(key >= 0); FTGC__ASSERT(key <= ctx->table_size);`. -/
def iterGetFirstAssertPre (h : ftgc_hashindex_s) (key : Int) : Prop :=
  0 ≤ key ∧ key ≤ (h.table_size : Int)

/-- Valid index range of the `table` and `chain` allocations, both of which
are `FTGC_MALLOC`ed with exactly `table_size` cells in
`ftgc_hashindex_init`. -/
def tableIndexInBounds (h : ftgc_hashindex_s) (key : Int) : Prop :=
  0 ≤ key ∧ key < (h.table_size : Int)

/-- C10: `key = table_size` satisfies the asserted preconditions of both
`ftgc_hashindex_remove_first` and `ftgc_hashindex_iter_get_first` (they check
`key <= table_size`, inclusive), yet it is outside the valid index range of
the `table`/`chain` allocations — the guard is off by one; `key < table_size`
would exclude it. -/
theorem ftgc_hashindex_key_bound_off_by_one (h : ftgc_hashindex_s) :
    removeFirstAssertPre h (h.table_size : Int) ∧
    iterGetFirstAssertPre h (h.table_size : Int) ∧
    ¬ tableIndexInBounds h (h.table_size : Int) := by
  refine ⟨⟨le_refl _, ?_⟩, ⟨?_, le_refl _⟩, ?_⟩
  · exact Int.ofNat_nonneg _
  · exact Int.ofNat_nonneg _
  · intro hcon
    exact lt_irrefl _ hcon.2

/-! ## Growable array (claims about ftgc_array_*) -/

/-- State of a resizable array handle (`none` models a NULL handle).
`capacity` and `count` are the two housekeeping words in front of the
elements (`ftgc__array_size` and `ftgc_array_count`); `allocElems` records
how many elements' worth of storage the last `FTGC_REALLOC` actually
obtained. -/
structure GArray where
  allocElems : Nat
  capacity : Nat
  count : Nat
  elems : List Int
deriving DecidableEq

/-- `ftgc__default_new_elem_count`: the requested allocation grows to
`max(old * 1.5, old + incr)` elements; the C float product `(int)((float)old
* 1.5f)` is modelled as the exact floor `3 * old / 2`. -/
def ftgc__default_new_elem_count (old_elem_count incr_elems : Nat) : Nat :=
  let expand_new_elem_count := 3 * old_elem_count / 2
  let min_new_elem_count := old_elem_count + incr_elems
  if expand_new_elem_count < min_new_elem_count then min_new_elem_count
  else expand_new_elem_count

/-- `ftgc__array_grow`: reallocates to `ftgc__default_new_elem_count`
elements, but the recorded element capacity (`ftgc__array_size`) is only
incremented by `incr_elems` (`ftgc__array_size(*array) += incr_elems`); on
allocation failure the old handle is returned unchanged. -/
def ftgc__array_grow (a : Option GArray) (incr_elems : Nat) (allocOk : Bool) :
    Option GArray :=
  let old_elem_count := match a with
    | none => 0
    | some g => g.capacity
  let new_elem_count := ftgc__default_new_elem_count old_elem_count incr_elems
  if allocOk = false then a
  else
    match a with
    | none =>
      some { allocElems := new_elem_count, capacity := incr_elems, count := 0,
             elems := [] }
    | some g =>
      if g.capacity = 0 then
        some { allocElems := new_elem_count, capacity := incr_elems,
               count := 0, elems := g.elems }
      else
        some { g with allocElems := new_elem_count,
                      capacity := g.capacity + incr_elems }

/-- `ftgc__array_test_needs_to_grow`. -/
def ftgc__array_test_needs_to_grow (a : Option GArray) (n : Nat) : Bool :=
  match a with
  | none => true
  | some g => decide (g.capacity < g.count + n)

/-- `ftgc_array_append`: grow if needed, then write the value at index
`count` and increment `count`. -/
def ftgc_array_append (a : Option GArray) (d : Int) (allocOk : Bool) :
    Option GArray :=
  let a1 := if ftgc__array_test_needs_to_grow a 1
            then ftgc__array_grow a 1 allocOk else a
  match a1 with
  | none => none
  | some g =>
    some { g with count := g.count + 1, elems := g.elems.take g.count ++ [d] }

/-- `ftgc_array_init`: `(a)=NULL, ftgc_array_reserve((a),(n))`. -/
def ftgc_array_init (n : Nat) (allocOk : Bool) : Option GArray :=
  ftgc__array_grow none n allocOk

/-- The array reached by `ftgc_array_init(1)` and four successful appends:
its recorded capacity is 4 and it is full. -/
def c5Arr4 : Option GArray :=
  ftgc_array_append
    (ftgc_array_append
      (ftgc_array_append
        (ftgc_array_append (ftgc_array_init 1 true) 1 true) 2 true) 3 true)
    4 true

/-- C5 counterexample: growing the full capacity-4 array by a request of one
more element yields recorded capacity 5, not `max(floor(4 * 1.5), 4 + 1) =
6` as the claim states — the allocation request is 6 elements, but the
recorded capacity only grows by the increment. -/
theorem ftgc_array_growth_cex :
    (c5Arr4.map GArray.capacity) = some 4 ∧
    ((ftgc_array_append c5Arr4 5 true).map GArray.capacity) = some 5 ∧
    ftgc__default_new_elem_count 4 1 = 6 ∧ (5 : Nat) ≠ 6 := by decide

/-- C5 (amended): a successful growth of a non-empty array requests storage
for `max(floor(capacity * 1.5), capacity + incr)` elements from the
allocator, but records the new capacity as exactly `capacity + incr`; the
recorded capacity still strictly exceeds the old one, and `capacity >= count`
holds after every successful append. -/
theorem ftgc_array_growth_amended (g : GArray) (incr : Nat) (d : Int)
    (h1 : 0 < incr) (h2 : 0 < g.capacity) (h3 : g.count ≤ g.capacity) :
    ftgc__array_grow (some g) incr true =
      some { g with allocElems := ftgc__default_new_elem_count g.capacity incr,
                    capacity := g.capacity + incr } ∧
    g.capacity < g.capacity + incr ∧
    ftgc__default_new_elem_count g.capacity incr =
      max (3 * g.capacity / 2) (g.capacity + incr) ∧
    ∃ g', ftgc_array_append (some g) d true = some g' ∧
      g'.count ≤ g'.capacity := by
  refine ⟨?_, by omega, ?_, ?_⟩
  · simp [ftgc__array_grow, Nat.pos_iff_ne_zero.mp h2]
  · simp only [ftgc__default_new_elem_count, Nat.max_def]
    split_ifs <;> omega
  · by_cases hng : g.capacity < g.count + 1
    · have hstep : ftgc_array_append (some g) d true =
          some { allocElems := ftgc__default_new_elem_count g.capacity 1,
                 capacity := g.capacity + 1, count := g.count + 1,
                 elems := g.elems.take g.count ++ [d] } := by
        simp [ftgc_array_append, ftgc__array_test_needs_to_grow, hng,
          ftgc__array_grow, Nat.pos_iff_ne_zero.mp h2]
      exact ⟨_, hstep, by simp; omega⟩
    · have hstep : ftgc_array_append (some g) d true =
          some { g with count := g.count + 1,
                        elems := g.elems.take g.count ++ [d] } := by
        simp [ftgc_array_append, ftgc__array_test_needs_to_grow, hng]
      exact ⟨_, hstep, by simp; omega⟩

theorem ftgc_array_growth_amended_witness :
    ftgc__array_grow (some ⟨6, 4, 4, [1, 2, 3, 4]⟩) 1 true =
      some { (⟨6, 4, 4, [1, 2, 3, 4]⟩ : GArray) with
             allocElems := ftgc__default_new_elem_count 4 1,
             capacity := 4 + 1 } ∧
    4 < 4 + 1 ∧
    ftgc__default_new_elem_count 4 1 = max (3 * 4 / 2) (4 + 1) ∧
    (∃ g', ftgc_array_append (some ⟨6, 4, 4, [1, 2, 3, 4]⟩) 9 true = some g' ∧
      g'.count ≤ g'.capacity) :=
  ftgc_array_growth_amended ⟨6, 4, 4, [1, 2, 3, 4]⟩ 1 9 (by decide) (by decide)
    (by decide)

/-! ## Variant (claims about ftgc_variant_*) -/

/-- A C string value together with the address it lives at; addresses are
what the borrowed/owned distinction of the variant observes. -/
structure ftgc_cstr where
  addr : Nat
  chars : List Nat
deriving DecidableEq

inductive ftgc_variant_type_t where
  | vtVoid
  | vtVoidPtr
  | vtBool
  | vtSint32
  | vtUint32
  | vtFloat
  | vtVec2
  | vtVec3
  | vtString
deriving DecidableEq

/-- The variant; only the tag and the string member of the payload union are
modelled — the claims under verification observe nothing but strings, and the
numeric members are dead weight for them.  `external_storage` is a borrowed
pointer (never freed by the variant), `internal_storage` an owned heap
copy. -/
structure ftgc_variant_s where
  field_type : ftgc_variant_type_t
  external_storage : Option ftgc_cstr
  internal_storage : Option ftgc_cstr
deriving DecidableEq

/-- `ftgc_variant_init` / the state after `FTGC__VARIANT_CLEAR`: tag
`FTGC_VARTYPE_VOID`, both string pointers null, numeric payload zeroed. -/
def ftgc_variant_zeroed : ftgc_variant_s :=
  { field_type := ftgc_variant_type_t.vtVoid
    external_storage := none
    internal_storage := none }

/-- `FTGC__VARIANT_CLEAR`: frees an owned string buffer if one is attached
(a no-op in the model), zeroes the payload and resets the tag to void. -/
def ftgc__variant_clear (_v : ftgc_variant_s) : ftgc_variant_s :=
  ftgc_variant_zeroed

/-- `ftgc_variant_set_string`: clear, set the tag to string, then try to
allocate the owned copy.  `allocOk` is the `FTGC_MALLOC` outcome and
`allocAddr` the address of the fresh buffer when it succeeds.  Returns the
new variant state and the C result (1 = ok, 0 = allocation failed).  Note
the tag is set to string before the allocation is attempted, so it stays
string on failure. -/
def ftgc_variant_set_string (v : ftgc_variant_s) (str : List Nat)
    (allocOk : Bool) (allocAddr : Nat) : ftgc_variant_s × Bool :=
  let v1 := ftgc__variant_clear v
  let v2 := { v1 with field_type := ftgc_variant_type_t.vtString }
  if allocOk then
    ({ v2 with internal_storage := some { addr := allocAddr, chars := str } },
     true)
  else
    (v2, false)

/-- `ftgc_variant_set_string_ptr`: clear, set the tag to string and store the
borrowed pointer, allocating nothing. -/
def ftgc_variant_set_string_ptr (v : ftgc_variant_s) (p_str : ftgc_cstr) :
    ftgc_variant_s :=
  { ftgc__variant_clear v with
      field_type := ftgc_variant_type_t.vtString
      external_storage := some p_str
      internal_storage := none }

/-- `ftgc_variant_get_string`: the borrowed pointer if one is set, otherwise
the owned buffer (possibly null). -/
def ftgc_variant_get_string (v : ftgc_variant_s) : Option ftgc_cstr :=
  match v.external_storage with
  | some e => some e
  | none => v.internal_storage

/-- C3 counterexample: when the allocation inside `ftgc_variant_set_string`
fails, the resulting tag is `FTGC_VARTYPE_STRING`, not `FTGC_VARTYPE_VOID` as
the claim states (the tag is assigned before the allocation is attempted). -/
theorem ftgc_variant_set_string_fail_tag_cex :
    (ftgc_variant_set_string ftgc_variant_zeroed [104, 105] false 7).1.field_type
      = ftgc_variant_type_t.vtString ∧
    ftgc_variant_type_t.vtString ≠ ftgc_variant_type_t.vtVoid := by decide

/-- C3 (amended): if the heap allocation inside `ftgc_variant_set_string`
fails, the call reports failure and leaves the variant with no payload at all
(any previously owned buffer has been freed by the clear, both storage
pointers are null) — but with tag `FTGC_VARTYPE_STRING`, not
`FTGC_VARTYPE_VOID`. -/
theorem ftgc_variant_set_string_fail_amended (v : ftgc_variant_s)
    (str : List Nat) (allocAddr : Nat) :
    ftgc_variant_set_string v str false allocAddr =
      ({ field_type := ftgc_variant_type_t.vtString
         external_storage := none
         internal_storage := none }, false) := rfl

/-- C8: a successful `ftgc_variant_set_string` stores an owned copy of the
source string at the freshly allocated address — `ftgc_variant_get_string`
then returns a string with equal characters but a different address than the
source (when the allocator hands back a fresh address, as `FTGC_MALLOC`
does); `ftgc_variant_set_string_ptr` stores the pointer itself and
`ftgc_variant_get_string` returns exactly it, no copy made. -/
theorem ftgc_variant_string_roundtrip (v : ftgc_variant_s) (s : ftgc_cstr)
    (allocAddr : Nat) (hfresh : allocAddr ≠ s.addr) (p : ftgc_cstr) :
    (ftgc_variant_set_string v s.chars true allocAddr).2 = true ∧
    ftgc_variant_get_string (ftgc_variant_set_string v s.chars true allocAddr).1
      = some { addr := allocAddr, chars := s.chars } ∧
    ({ addr := allocAddr, chars := s.chars } : ftgc_cstr).chars = s.chars ∧
    ({ addr := allocAddr, chars := s.chars } : ftgc_cstr).addr ≠ s.addr ∧
    ftgc_variant_get_string (ftgc_variant_set_string_ptr v p) = some p := by
  refine ⟨rfl, rfl, rfl, hfresh, rfl⟩

theorem ftgc_variant_string_roundtrip_witness :
    (ftgc_variant_set_string ftgc_variant_zeroed
      (ftgc_cstr.chars ⟨3, [104, 105]⟩) true 9).2 = true ∧
    ftgc_variant_get_string
        (ftgc_variant_set_string ftgc_variant_zeroed
          (ftgc_cstr.chars ⟨3, [104, 105]⟩) true 9).1
      = some { addr := 9, chars := ftgc_cstr.chars ⟨3, [104, 105]⟩ } ∧
    ({ addr := 9, chars := ftgc_cstr.chars ⟨3, [104, 105]⟩ } : ftgc_cstr).chars
      = ftgc_cstr.chars ⟨3, [104, 105]⟩ ∧
    ({ addr := 9, chars := ftgc_cstr.chars ⟨3, [104, 105]⟩ } : ftgc_cstr).addr
      ≠ ftgc_cstr.addr ⟨3, [104, 105]⟩ ∧
    ftgc_variant_get_string
        (ftgc_variant_set_string_ptr ftgc_variant_zeroed ⟨12, [119]⟩)
      = some ⟨12, [119]⟩ :=
  ftgc_variant_string_roundtrip ftgc_variant_zeroed ⟨3, [104, 105]⟩ 9
    (by decide) ⟨12, [119]⟩

/-! ## Dictionary (claims about ftgc_dict_*) -/

def FTGC_DICT_KEY_BYTES : Nat := 9

/-- `ftgc_dict_s`: parallel key/value arrays plus the hashindex.  A stored
key is the list of its bytes up to the terminator (`[]` = empty slot); C
strings are lists of non-zero bytes. -/
structure ftgc_dict_s where
  dict_size : Nat
  num_pairs : Nat
  keys : Nat → List Nat
  values : Nat → ftgc_variant_s
  hash_index : ftgc_hashindex_s

/-- One character step of the string hash in
`ftgc_hashindex_generate_key_string`, on 32-bit unsigned arithmetic. -/
def ftgc__hash_string_step (hash c : Nat) : Nat :=
  let h1 := ((hash <<< 4) + c) % 4294967296
  let x := h1 &&& 0xF0000000
  (if x ≠ 0 then h1 ^^^ (x >>> 24) else h1) &&& (0xFFFFFFFF ^^^ x)

/-- `ftgc_hashindex_generate_key_string`: fold the step over the bytes, then
mask into the table range. -/
def ftgc_hashindex_generate_key_string (ctx : ftgc_hashindex_s)
    (str : List Nat) : Nat :=
  (str.foldl ftgc__hash_string_step 0) &&& ctx.hash_mask

/-- ASCII `tolower` as used by the case-folding compare. -/
def ftgc__tolower (c : Nat) : Nat :=
  if 65 ≤ c ∧ c ≤ 90 then c + 32 else c

/-- `ftgc__keycmp` (case-folding branch, the default): compare byte by byte
under `tolower`, returning the first non-zero difference, 0 when the strings
are case-fold equal. -/
def ftgc__keycmp : List Nat → List Nat → Int
  | [], [] => 0
  | [], b :: _ => 0 - (ftgc__tolower b : Int)
  | a :: _, [] => (ftgc__tolower a : Int)
  | a :: s1, b :: s2 =>
    if ftgc__tolower a = ftgc__tolower b then ftgc__keycmp s1 s2
    else (ftgc__tolower a : Int) - (ftgc__tolower b : Int)

/-- `ftgc__dict_find_index_for_key`: hash the (full, untruncated) query key,
walk the slot's iteration sequence, skip `FTGC_HASHINDEX_DELETED`, and return
the first index whose stored key bytes compare case-fold equal to the query;
`FTGC_HASHINDEX_UNUSED` if none does. -/
def ftgc__dict_find_index_for_key (d : ftgc_dict_s) (key : List Nat) : Int :=
  let hash := ftgc_hashindex_generate_key_string d.hash_index key
  match ((slotIter d.hash_index hash).filter
      (fun i => i != FTGC_HASHINDEX_DELETED)).find?
      (fun i => ftgc__keycmp key (d.keys i.toNat) == 0) with
  | some i => i
  | none => FTGC_HASHINDEX_UNUSED

/-- `ftgc__dict_reallocate` (successful allocation): grows the key/value
arrays to `new_size` slots, keeping old contents and void-initializing the
new variants. -/
def ftgc__dict_reallocate (d : ftgc_dict_s) (new_size : Nat) : ftgc_dict_s :=
  { d with dict_size := new_size
           values := fun i => if d.dict_size ≤ i ∧ i < new_size
                              then ftgc_variant_zeroed else d.values i }

/-- `ftgc__dict_find_empty_slot`: first slot below `num_pairs` whose key
buffer starts with the terminator, else append a fresh slot. -/
def ftgc__dict_find_empty_slot (d : ftgc_dict_s) : ftgc_dict_s × Nat :=
  match (List.range d.num_pairs).find?
      (fun i => d.keys i == ([] : List Nat)) with
  | some i => (d, i)
  | none => ({ d with num_pairs := d.num_pairs + 1 }, d.num_pairs)

/-- `ftgc__dict_set_key`: copy at most `FTGC_DICT_KEY_BYTES - 1` characters
and terminate — longer keys are silently truncated. -/
def ftgc__dict_set_key (src : List Nat) : List Nat :=
  src.take (FTGC_DICT_KEY_BYTES - 1)

/-- Tail of `ftgc_dict_set_string` once the target slot is known: write the
truncated key, set the slot's variant to an owned copy of `value` (the
result of that copy is discarded by the source — see the fixme there), then
register `(hash, target)` in the hashindex; fails only when the hashindex
reports out of memory. -/
def ftgc__dict_set_pair (d : ftgc_dict_s) (key value : List Nat) (target : Nat)
    (variantOk chainOk : Bool) (allocAddr : Nat) : ftgc_dict_s × Bool :=
  let d1 := { d with
    keys := Function.update d.keys target (ftgc__dict_set_key key)
    values := Function.update d.values target
      (ftgc_variant_set_string (d.values target) value variantOk allocAddr).1 }
  let hash := ftgc_hashindex_generate_key_string d1.hash_index key
  let ar := ftgc_hashindex_add_key d1.hash_index hash (target : Int) chainOk
  let d2 := { d1 with hash_index := ar.1 }
  if ar.2 = -1 then (d2, false) else (d2, true)

/-- `ftgc_dict_set_string`.  `reallocOk`, `variantOk`, `chainOk` are the
outcomes of the three allocations that can occur (key/value array growth,
the variant's string copy, the hashindex chain node); `allocAddr` is the
address of the variant's fresh buffer. -/
def ftgc_dict_set_string (d : ftgc_dict_s) (key value : List Nat)
    (reallocOk variantOk chainOk : Bool) (allocAddr : Nat) :
    ftgc_dict_s × Bool :=
  let index := ftgc__dict_find_index_for_key d key
  if index = FTGC_HASHINDEX_UNUSED then
    if d.num_pairs = d.dict_size ∧ reallocOk = false then (d, false)
    else
      let d1 := if d.num_pairs = d.dict_size
                then ftgc__dict_reallocate d (d.dict_size + FTGC_DICT_KEY_BYTES)
                else d
      let es := ftgc__dict_find_empty_slot d1
      ftgc__dict_set_pair es.1 key value es.2 variantOk chainOk allocAddr
  else
    ftgc__dict_set_pair d key value index.toNat variantOk chainOk allocAddr

/-- `ftgc_dict_get_string`: return the matching slot's string value, else the
fallback. -/
def ftgc_dict_get_string (d : ftgc_dict_s) (key : List Nat)
    (fallback_string : Option ftgc_cstr) : Option ftgc_cstr :=
  let index := ftgc__dict_find_index_for_key d key
  if index ≠ FTGC_HASHINDEX_UNUSED then
    ftgc_variant_get_string (d.values index.toNat)
  else fallback_string

/-- `ftgc_dict_init` (successful allocation): the hashindex is initialized
with `dict_size` (the adjusted `hash_size` local is never used), all variants
are void-initialized; the C key buffers are left uninitialized but are never
read before being written, so they are modelled as empty. -/
def ftgc_dict_init (size hash_size : Nat) : ftgc_dict_s :=
  { dict_size := size
    num_pairs := 0
    keys := fun _ => []
    values := fun _ => ftgc_variant_zeroed
    hash_index := ftgc_hashindex_init size }

/-- C2 (the code contradicts the claim and its own comments): first, a
`ftgc_dict_set_string` call during which the variant's own string copy fails
(all other allocations succeed) still returns success — the source discards
`ftgc_variant_set_string`'s result (its fixme note admits it should return 0
there).  Second, a call during which the hashindex chain-node allocation
fails (keys "1" and "5" collide in a size-4 table) returns failure, an
allocation-failure source the claim's "only" clause excludes. -/
theorem ftgc_dict_set_string_ignores_variant_alloc_failure :
    (ftgc_dict_set_string (ftgc_dict_init 4 4) [107] [118] true false true
        55).2 = true ∧
    (ftgc_dict_set_string
        (ftgc_dict_set_string (ftgc_dict_init 4 4) [49] [118] true true true
          55).1
        [53] [119] true true false 56).2 = false := by decide

/-! ## Key comparison facts (claim C9) -/

theorem ftgc__keycmp_self (s : List Nat) : ftgc__keycmp s s = 0 := by
  induction s with
  | nil => rfl
  | cons a t ih => simp [ftgc__keycmp, ih]

theorem ftgc__tolower_ne_zero {c : Nat} (hc : c ≠ 0) : ftgc__tolower c ≠ 0 := by
  unfold ftgc__tolower
  split <;> omega

/-- Comparing a C string against a proper truncation of itself never reports
equality: the query's first byte past the truncation point meets the stored
terminator. -/
theorem ftgc__keycmp_take_ne (n : Nat) :
    ∀ (s : List Nat), n < s.length → (∀ c ∈ s, c ≠ 0) →
      ftgc__keycmp s (s.take n) ≠ 0 := by
  induction n with
  | zero =>
    intro s hlen hs
    match s with
    | [] => simp at hlen
    | a :: t =>
      have ha : a ≠ 0 := hs a (by simp)
      have := ftgc__tolower_ne_zero ha
      simp [ftgc__keycmp]
      omega
  | succ m ih =>
    intro s hlen hs
    match s with
    | [] => simp at hlen
    | a :: t =>
      have ht : ∀ c ∈ t, c ≠ 0 := fun c hc => hs c (by simp [hc])
      have hlt : m < t.length := by simpa using hlen
      simpa [ftgc__keycmp] using ih t hlt ht

/-- On a freshly initialized dictionary every lookup misses: the hashed slot
is `FTGC_HASHINDEX_UNUSED`, so the iteration sequence is empty. -/
theorem dict_find_on_fresh (sz hsz : Nat) (key : List Nat) :
    ftgc__dict_find_index_for_key (ftgc_dict_init sz hsz) key
      = FTGC_HASHINDEX_UNUSED := by
  simp [ftgc__dict_find_index_for_key, ftgc_dict_init, ftgc_hashindex_init,
    slotIter, ftgc_hashindex_iter_get_first]

/-- The state after the first `ftgc_dict_set_string` on a fresh, non-empty
dictionary with all allocations succeeding: slot 0 claimed, truncated key and
owned string stored there, `(hash, 0)` registered at the head of the hashed
table slot, success returned. -/
theorem dict_set_on_fresh (sz hsz : Nat) (hsz0 : ¬ (0 = sz))
    (key v : List Nat) (A : Nat) :
    ftgc_dict_set_string (ftgc_dict_init sz hsz) key v true true true A =
      ({ dict_size := sz
         num_pairs := 1
         keys := Function.update (fun _ => []) 0 (ftgc__dict_set_key key)
         values := Function.update (fun _ => ftgc_variant_zeroed) 0
           { field_type := ftgc_variant_type_t.vtString
             external_storage := none
             internal_storage := some { addr := A, chars := v } }
         hash_index :=
           { table := Function.update (fun _ => FTGC_HASHINDEX_UNUSED)
               ((key.foldl ftgc__hash_string_step 0) &&&
                 (ftgc__pow2_roundup sz - 1)) 0
             chain := fun _ => [FTGC_HASHINDEX_UNUSED]
             table_size := ftgc__pow2_roundup sz
             hash_mask := ftgc__pow2_roundup sz - 1 } }, true) := by
  have hfind := dict_find_on_fresh sz hsz key
  unfold ftgc_dict_set_string
  rw [hfind]
  simp [hsz0, ftgc_dict_init, ftgc__dict_find_empty_slot, ftgc__dict_set_pair,
    ftgc_hashindex_add_key, ftgc_hashindex_init,
    ftgc_hashindex_generate_key_string, ftgc_variant_set_string,
    ftgc__variant_clear, ftgc_variant_zeroed]

/-- A lookup on a dictionary whose hashed table slot holds index 0 with an
empty overflow chain, when the query compares equal to the key stored at
slot 0, returns slot 0's string value. -/
theorem dict_get_single (d : ftgc_dict_s) (key : List Nat)
    (fb : Option ftgc_cstr)
    (h1 : d.hash_index.table
      (ftgc_hashindex_generate_key_string d.hash_index key) = 0)
    (h2 : d.hash_index.chain
      (ftgc_hashindex_generate_key_string d.hash_index key)
      = [FTGC_HASHINDEX_UNUSED])
    (h3 : ftgc__keycmp key (d.keys 0) = 0) :
    ftgc_dict_get_string d key fb = ftgc_variant_get_string (d.values 0) := by
  simp [ftgc_dict_get_string, ftgc__dict_find_index_for_key, slotIter,
    ftgc_hashindex_iter_get_first, h1, h2, h3, chainCollect,
    FTGC_HASHINDEX_UNUSED, FTGC_HASHINDEX_DELETED]

/-- As `dict_get_single`, but when the query does not compare equal to the
stored key the lookup falls back. -/
theorem dict_get_single_miss (d : ftgc_dict_s) (key : List Nat)
    (fb : Option ftgc_cstr)
    (h1 : d.hash_index.table
      (ftgc_hashindex_generate_key_string d.hash_index key) = 0)
    (h2 : d.hash_index.chain
      (ftgc_hashindex_generate_key_string d.hash_index key)
      = [FTGC_HASHINDEX_UNUSED])
    (h3 : (ftgc__keycmp key (d.keys 0) == 0) = false) :
    ftgc_dict_get_string d key fb = fb := by
  simp [ftgc_dict_get_string, ftgc__dict_find_index_for_key, slotIter,
    ftgc_hashindex_iter_get_first, h1, h2, h3, chainCollect,
    FTGC_HASHINDEX_UNUSED, FTGC_HASHINDEX_DELETED]

/-- A set whose lookup misses on a one-pair dictionary with a free slot
claims a fresh slot: `num_pairs` goes from 1 to 2. -/
theorem dict_set_second_slot (d : ftgc_dict_s) (key v : List Nat) (A2 : Nat)
    (hnp : d.num_pairs = 1)
    (hful : ¬ (d.num_pairs = d.dict_size))
    (h1 : d.hash_index.table
      (ftgc_hashindex_generate_key_string d.hash_index key) = 0)
    (h2 : d.hash_index.chain
      (ftgc_hashindex_generate_key_string d.hash_index key)
      = [FTGC_HASHINDEX_UNUSED])
    (h3 : (ftgc__keycmp key (d.keys 0) == 0) = false)
    (h4 : (d.keys 0).isEmpty = false) :
    (ftgc_dict_set_string d key v true true true A2).1.num_pairs = 2 := by
  have hful1 : ¬ ((1 : Nat) = d.dict_size) := hnp ▸ hful
  simp [ftgc_dict_set_string, ftgc__dict_find_index_for_key, slotIter,
    ftgc_hashindex_iter_get_first, h1, h2, h3, h4, hnp, hful1,
    ftgc__dict_find_empty_slot, ftgc__dict_set_pair, ftgc_hashindex_add_key,
    ftgc__is_value_in_chain, chainCollect, List.range_succ,
    FTGC_HASHINDEX_UNUSED, FTGC_HASHINDEX_DELETED]

/-- C9: stored keys are truncated to `FTGC_DICT_KEY_BYTES - 1 = 8` bytes while
lookup compares the full untruncated query against the stored bytes.  So on a
fresh dictionary, for every C-string key of at most 8 bytes a successful
`ftgc_dict_set_string` followed by `ftgc_dict_get_string` returns the stored
value, while for every key longer than 8 bytes the set succeeds but the get
returns the fallback, and a repeated set with the same long key claims a
second slot instead of overwriting the first. -/
theorem ftgc_dict_key_truncation (sz hsz : Nat) (hsz2 : 2 ≤ sz)
    (key v : List Nat) (fb : Option ftgc_cstr) (A A2 : Nat)
    (hk0 : ∀ c ∈ key, c ≠ 0) (hkne : key ≠ []) :
    (key.length ≤ 8 →
      (ftgc_dict_set_string (ftgc_dict_init sz hsz) key v true true true A).2
        = true ∧
      ftgc_dict_get_string
          (ftgc_dict_set_string (ftgc_dict_init sz hsz) key v true true true
            A).1 key fb = some { addr := A, chars := v }) ∧
    (8 < key.length →
      (ftgc_dict_set_string (ftgc_dict_init sz hsz) key v true true true A).2
        = true ∧
      ftgc_dict_get_string
          (ftgc_dict_set_string (ftgc_dict_init sz hsz) key v true true true
            A).1 key fb = fb ∧
      (ftgc_dict_set_string (ftgc_dict_init sz hsz) key v true true true
        A).1.num_pairs = 1 ∧
      (ftgc_dict_set_string
          (ftgc_dict_set_string (ftgc_dict_init sz hsz) key v true true true
            A).1 key v true true true A2).1.num_pairs = 2) := by
  have hsz0 : ¬ (0 = sz) := by omega
  have hset := dict_set_on_fresh sz hsz hsz0 key v A
  have h1 : (ftgc_dict_set_string (ftgc_dict_init sz hsz) key v true true true
      A).1.hash_index.table
      (ftgc_hashindex_generate_key_string
        (ftgc_dict_set_string (ftgc_dict_init sz hsz) key v true true true
          A).1.hash_index key) = 0 := by
    rw [hset]
    simp [ftgc_hashindex_generate_key_string, Function.update_same]
  have h2 : (ftgc_dict_set_string (ftgc_dict_init sz hsz) key v true true true
      A).1.hash_index.chain
      (ftgc_hashindex_generate_key_string
        (ftgc_dict_set_string (ftgc_dict_init sz hsz) key v true true true
          A).1.hash_index key) = [FTGC_HASHINDEX_UNUSED] := by
    rw [hset]
  have hkeys0 : (ftgc_dict_set_string (ftgc_dict_init sz hsz) key v true true
      true A).1.keys 0 = ftgc__dict_set_key key := by
    rw [hset]
    simp [Function.update_same]
  constructor
  · -- keys of at most 8 bytes survive truncation, so the round trip works
    intro hlen
    have htake : ftgc__dict_set_key key = key := by
      unfold ftgc__dict_set_key FTGC_DICT_KEY_BYTES
      exact List.take_of_length_le (by omega)
    have h3 : ftgc__keycmp key
        ((ftgc_dict_set_string (ftgc_dict_init sz hsz) key v true true true
          A).1.keys 0) = 0 := by
      rw [hkeys0, htake]
      exact ftgc__keycmp_self key
    refine ⟨by rw [hset], ?_⟩
    rw [dict_get_single _ key fb h1 h2 h3, hset]
    simp [Function.update_same, ftgc_variant_get_string]
  · -- longer keys are stored truncated but compared in full: every lookup
    -- misses, and every set claims a fresh slot
    intro hlen
    have hkc : ftgc__keycmp key (ftgc__dict_set_key key) ≠ 0 := by
      unfold ftgc__dict_set_key FTGC_DICT_KEY_BYTES
      exact ftgc__keycmp_take_ne (9 - 1) key (by omega) hk0
    have hkcb : (ftgc__keycmp key
        ((ftgc_dict_set_string (ftgc_dict_init sz hsz) key v true true true
          A).1.keys 0) == 0) = false := by
      rw [hkeys0]
      simpa using hkc
    have hkeyne : ((ftgc_dict_set_string (ftgc_dict_init sz hsz) key v true
        true true A).1.keys 0).isEmpty = false := by
      rw [hkeys0]
      obtain ⟨a, t, rfl⟩ : ∃ a t, key = a :: t := by
        cases key with
        | nil => exact absurd rfl hkne
        | cons a t => exact ⟨a, t, rfl⟩
      rfl
    refine ⟨by rw [hset], ?_, by rw [hset], ?_⟩
    · exact dict_get_single_miss _ key fb h1 h2 hkcb
    · refine dict_set_second_slot _ key v A2 (by rw [hset]) ?_ h1 h2 hkcb
        hkeyne
      rw [hset]
      simp
      omega
theorem ftgc_dict_key_truncation_witness :
    (ftgc_dict_get_string
        (ftgc_dict_set_string (ftgc_dict_init 4 4) [107, 101, 121] [118]
          true true true 55).1 [107, 101, 121]
        (some { addr := 0, chars := [120] })
      = some { addr := 55, chars := [118] }) ∧
    (ftgc_dict_get_string
        (ftgc_dict_set_string (ftgc_dict_init 4 4)
          [97, 98, 99, 100, 101, 102, 103, 104, 105] [118] true true true
          55).1 [97, 98, 99, 100, 101, 102, 103, 104, 105]
        (some { addr := 0, chars := [120] })
      = some { addr := 0, chars := [120] }) ∧
    (ftgc_dict_set_string
        (ftgc_dict_set_string (ftgc_dict_init 4 4)
          [97, 98, 99, 100, 101, 102, 103, 104, 105] [118] true true true
          55).1
        [97, 98, 99, 100, 101, 102, 103, 104, 105] [118] true true true
        56).1.num_pairs = 2 := by
  have hshort := (ftgc_dict_key_truncation 4 4 (by decide) [107, 101, 121]
    [118] (some { addr := 0, chars := [120] }) 55 56 (by decide)
    (by decide)).1 (by decide)
  have hlong := (ftgc_dict_key_truncation 4 4 (by decide)
    [97, 98, 99, 100, 101, 102, 103, 104, 105] [118]
    (some { addr := 0, chars := [120] }) 55 56 (by decide) (by decide)).2
    (by decide)
  exact ⟨hshort.2, hlong.2.1, hlong.2.2.2⟩
